import Mathlib

/-!
Verification of the in-memory datastore of the indradb graph database
(`src/lib/src/memory/datastore.rs`) against its natural-language
specification.

The Rust `BTreeMap` indices are embedded as association lists ordered by
their key; where a claim depends on the map invariants (sorted, duplicate
free keys) the theorem carries them as an explicit hypothesis.  Machine
integers (`u32` limits, timestamps) are embedded as `Nat`; `BTreeMap`
iteration order is the list order.
-/

set_option maxHeartbeats 1000000

namespace IndraDB

/-- UUIDs are 128-bit identifiers with a total order; embedded as `Nat`.
`Uuid::default()` is the all-zeros UUID, embedded as `0`. -/
abbrev Uuid := Nat

/-- Modelled from the spec: `models::Type` (not under `src/`), a string tag,
non-empty in all user-visible values; the empty string is representable
because the engine fabricates an empty sentinel for range scans. -/
structure Ty where
  name : String
deriving DecidableEq

/-- Rust `String` order: lexicographic over the character sequence. -/
instance : LT Ty := ⟨fun a b => a.name.data < b.name.data⟩

instance (a b : Ty) : Decidable (a < b) :=
  inferInstanceAs (Decidable (a.name.data < b.name.data))

/-- Modelled from the spec: `models::Weight` (not under `src/`), a scalar
attached to an edge.  The engine only stores and copies weights, so the
numeric carrier is embedded as `Int`. -/
abbrev Weight := Int

/-- Timestamps (`DateTime<Utc>`): an ordered instant, embedded as `Nat`. -/
abbrev Instant := Nat

/-- Modelled from the spec: `models::EdgeKey` (not under `src/`), the triple
`(outbound_id, t, inbound_id)` identifying an edge. -/
structure EdgeKey where
  outbound_id : Uuid
  t : Ty
  inbound_id : Uuid
deriving DecidableEq

/-- Modelled from the spec: `EdgeKey` is "ordered lexicographically in that
field order". -/
def EdgeKey.lt (a b : EdgeKey) : Prop :=
  a.outbound_id < b.outbound_id ∨
    (a.outbound_id = b.outbound_id ∧
      (a.t < b.t ∨ (a.t = b.t ∧ a.inbound_id < b.inbound_id)))

instance : LT EdgeKey := ⟨EdgeKey.lt⟩

instance (a b : EdgeKey) : Decidable (a < b) :=
  inferInstanceAs (Decidable (a.outbound_id < b.outbound_id ∨
    (a.outbound_id = b.outbound_id ∧
      (a.t < b.t ∨ (a.t = b.t ∧ a.inbound_id < b.inbound_id)))))

def EdgeKey.le (a b : EdgeKey) : Prop := a < b ∨ a = b

instance (a b : EdgeKey) : Decidable (EdgeKey.le a b) :=
  inferInstanceAs (Decidable (a < b ∨ a = b))

instance : LE EdgeKey := ⟨EdgeKey.le⟩

instance (a b : EdgeKey) : Decidable (a ≤ b) :=
  inferInstanceAs (Decidable (EdgeKey.le a b))

/-- Modelled from the spec: metadata values are "arbitrary JSON-shaped
dynamic values" (`serde_json::Value`, not under `src/`). -/
inductive JsonValue where
  | null
  | bool (b : Bool)
  | num (n : Int)
  | str (s : String)
deriving DecidableEq

/-- Modelled from the spec: `models::VertexValue` (not under `src/`), the
internal storage form `(owner_id, t)` of a vertex. -/
structure VertexValue where
  owner_id : Uuid
  t : Ty
deriving DecidableEq

/-- Modelled from the spec: the error taxonomy of §7 (`errors::Error`, not
under `src/`). -/
inductive Error where
  | AccountNotFound
  | VertexNotFound
  | MetadataNotFound
  | Unauthorized
  | OutOfRange
  | NotImplemented
deriving DecidableEq

/-- Modelled from the spec: the pipe converter, the projection from edges to
vertices or vertices to edges (`models::QueryTypeConverter`, not under
`src/`). -/
inductive QueryTypeConverter where
  | Outbound
  | Inbound
deriving DecidableEq

mutual

/-- Modelled from the spec: the `VertexQuery` AST of §4.1 (not under
`src/`).  Limits are `u32`, embedded as `Nat`. -/
inductive VertexQuery where
  | All (start_id : Option Uuid) (limit : Nat)
  | Vertices (ids : List Uuid)
  | Pipe (edge_query : EdgeQuery) (converter : QueryTypeConverter) (limit : Nat)

/-- Modelled from the spec: the `EdgeQuery` AST of §4.1 (not under
`src/`). -/
inductive EdgeQuery where
  | Edges (keys : List EdgeKey)
  | Pipe (vertex_query : VertexQuery) (converter : QueryTypeConverter)
      (type_filter : Option Ty) (high_filter : Option Instant)
      (low_filter : Option Instant) (limit : Nat)

end

instance {ε α : Type} [DecidableEq ε] [DecidableEq α] : DecidableEq (Except ε α) :=
  fun a b =>
    match a, b with
    | Except.ok x, Except.ok y =>
      if h : x = y then Decidable.isTrue (by rw [h])
      else Decidable.isFalse (by intro hc; cases hc; exact h rfl)
    | Except.ok _, Except.error _ => Decidable.isFalse (by intro hc; cases hc)
    | Except.error _, Except.ok _ => Decidable.isFalse (by intro hc; cases hc)
    | Except.error x, Except.error y =>
      if h : x = y then Decidable.isTrue (by rw [h])
      else Decidable.isFalse (by intro hc; cases hc; exact h rfl)

/-- The store behind the lock (`InternalMemoryDatastore`).  Each `BTreeMap`
is an association list in ascending key order; `accounts` is a `HashMap`,
kept as a list as well. -/
structure InternalMemoryDatastore where
  account_metadata : List ((Uuid × String) × JsonValue)
  accounts : List (Uuid × String)
  edge_metadata : List ((EdgeKey × String) × JsonValue)
  edges : List (EdgeKey × Weight × Instant)
  global_metadata : List (String × JsonValue)
  vertex_metadata : List ((Uuid × String) × JsonValue)
  vertices : List (Uuid × VertexValue)
deriving DecidableEq

/-- `BTreeMap::get`: the value bound to `k`, if any. -/
def listGet {K V : Type} [DecidableEq K] (l : List (K × V)) (k : K) : Option V :=
  match l with
  | [] => none
  | (k', v) :: rest => if k' = k then some v else listGet rest k

/-- `BTreeMap::insert`: bind `k` to `v`, replacing any existing binding and
keeping the list in ascending key order. -/
def listInsert {K V : Type} [DecidableEq K] [LT K]
    [inst : ∀ a b : K, Decidable (a < b)] (k : K) (v : V) :
    List (K × V) → List (K × V)
  | [] => [(k, v)]
  | (k', v') :: rest =>
    if k < k' then (k, v) :: (k', v') :: rest
    else if k = k' then (k, v) :: rest
    else (k', v') :: listInsert k v rest

/-- `BTreeMap::remove`: drop the binding of `k` (on a duplicate-free list,
`List.filter` removes exactly that binding). -/
def listRemove {K V : Type} [DecidableEq K] (k : K) (l : List (K × V)) :
    List (K × V) :=
  l.filter (fun e => decide (e.1 ≠ k))

/-- The range lower bound built for the outbound scan: the filter's type if
provided, else the empty sentinel type, with the all-zeros inbound UUID. -/
def scanLowerBound (id : Uuid) (type_filter : Option Ty) : EdgeKey :=
  match type_filter with
  | some t => ⟨id, t, 0⟩
  | none => ⟨id, ⟨""⟩, 0⟩

/-- `BTreeMap::range(lb..)`: the entries with key `≥ lb` in ascending order
(on a sorted list, `List.filter` is exactly that suffix, in order). -/
def rangeFrom (lb : EdgeKey) (edges : List (EdgeKey × Weight × Instant)) :
    List (EdgeKey × Weight × Instant) :=
  edges.filter (fun e => decide (lb ≤ e.1))

/-- `if let Some(type_filter) { key.t != type_filter }`: the type-filter
mismatch test (a break in the outbound walk, a skip inbound). -/
def typeMismatch (type_filter : Option Ty) (key : EdgeKey) : Bool :=
  match type_filter with
  | some tf => decide (key.t ≠ tf)
  | none => false

/-- `if let Some(high_filter) { *update_datetime > high_filter }`: the
high-filter rejection test. -/
def highReject (high_filter : Option Instant) (update_datetime : Instant) : Bool :=
  match high_filter with
  | some hf => decide (hf < update_datetime)
  | none => false

/-- `if let Some(low_filter) { *update_datetime < low_filter }`: the
low-filter rejection test. -/
def lowReject (low_filter : Option Instant) (update_datetime : Instant) : Bool :=
  match low_filter with
  | some lf => decide (update_datetime < lf)
  | none => false

/-- The inner loop of the outbound edge pipe: walk the range in order,
breaking on a foreign `outbound_id` or (under a type filter) a foreign type,
skipping entries the timestamp filters reject, pushing the rest; after each
push, if the result length equals `limit`, return early (`true` signals the
enclosing `return Ok(results)`). -/
def outboundWalk (id : Uuid) (type_filter : Option Ty)
    (high_filter low_filter : Option Instant) (limit : Nat) :
    List (EdgeKey × Weight × Instant) → List (EdgeKey × Weight × Instant) →
    List (EdgeKey × Weight × Instant) × Bool
  | [], results => (results, false)
  | (key, weight, update_datetime) :: rest, results =>
    if key.outbound_id ≠ id then (results, false)
    else if typeMismatch type_filter key then (results, false)
    else if highReject high_filter update_datetime then
      outboundWalk id type_filter high_filter low_filter limit rest results
    else if lowReject low_filter update_datetime then
      outboundWalk id type_filter high_filter low_filter limit rest results
    else
      let results' := results ++ [(key, weight, update_datetime)]
      if results'.length = limit then (results', true)
      else outboundWalk id type_filter high_filter low_filter limit rest results'

/-- The outer loop of the outbound edge pipe: for each source vertex, scan
its range; an early return from the inner walk ends the whole query. -/
def outboundLoop (edges : List (EdgeKey × Weight × Instant))
    (type_filter : Option Ty) (high_filter low_filter : Option Instant)
    (limit : Nat) :
    List (Uuid × VertexValue) → List (EdgeKey × Weight × Instant) →
    List (EdgeKey × Weight × Instant)
  | [], results => results
  | (id, _) :: rest, results =>
    match outboundWalk id type_filter high_filter low_filter limit
        (rangeFrom (scanLowerBound id type_filter) edges) results with
    | (results', true) => results'
    | (results', false) =>
      outboundLoop edges type_filter high_filter low_filter limit rest results'

/-- The inbound edge pipe: full scan of `edges` in order, skipping keys whose
`inbound_id` is not a candidate and entries any filter rejects; after each
push, if the result length equals `limit`, return. -/
def inboundLoop (candidate_ids : List Uuid) (type_filter : Option Ty)
    (high_filter low_filter : Option Instant) (limit : Nat) :
    List (EdgeKey × Weight × Instant) → List (EdgeKey × Weight × Instant) →
    List (EdgeKey × Weight × Instant)
  | [], results => results
  | (key, weight, update_datetime) :: rest, results =>
    if key.inbound_id ∉ candidate_ids then
      inboundLoop candidate_ids type_filter high_filter low_filter limit rest results
    else if typeMismatch type_filter key then
      inboundLoop candidate_ids type_filter high_filter low_filter limit rest results
    else if highReject high_filter update_datetime then
      inboundLoop candidate_ids type_filter high_filter low_filter limit rest results
    else if lowReject low_filter update_datetime then
      inboundLoop candidate_ids type_filter high_filter low_filter limit rest results
    else
      let results' := results ++ [(key, weight, update_datetime)]
      if results'.length = limit then results'
      else inboundLoop candidate_ids type_filter high_filter low_filter limit rest results'

mutual

/-- `InternalMemoryDatastore::get_vertex_values_by_query`.  The Rust function
returns `Result` but no branch constructs an error (the `?` only propagates
from the recursive call), so it is embedded as the plain list. -/
def get_vertex_values_by_query (store : InternalMemoryDatastore)
    (q : VertexQuery) : List (Uuid × VertexValue) :=
  match q with
  | VertexQuery.All start_id limit =>
    match start_id with
    | some s => (store.vertices.filter (fun p => decide (s ≤ p.1))).take limit
    | none => store.vertices.take limit
  | VertexQuery.Vertices ids =>
    ids.filterMap (fun id => (listGet store.vertices id).map (fun v => (id, v)))
  | VertexQuery.Pipe edge_query converter limit =>
    let edge_values := get_edge_values_by_query store edge_query
    let ids : List Uuid :=
      match converter with
      | QueryTypeConverter.Outbound =>
        (edge_values.take limit).map (fun e => e.1.outbound_id)
      | QueryTypeConverter.Inbound =>
        (edge_values.take limit).map (fun e => e.1.inbound_id)
    ids.filterMap (fun id => (listGet store.vertices id).map (fun v => (id, v)))
termination_by structural q

/-- `InternalMemoryDatastore::get_edge_values_by_query`; total for the same
reason as the vertex resolver. -/
def get_edge_values_by_query (store : InternalMemoryDatastore)
    (q : EdgeQuery) : List (EdgeKey × Weight × Instant) :=
  match q with
  | EdgeQuery.Edges keys =>
    keys.filterMap (fun key =>
      (listGet store.edges key).map (fun wd => (key, wd.1, wd.2)))
  | EdgeQuery.Pipe vertex_query converter type_filter high_filter low_filter limit =>
    let vertex_values := get_vertex_values_by_query store vertex_query
    match converter with
    | QueryTypeConverter.Outbound =>
      outboundLoop store.edges type_filter high_filter low_filter limit vertex_values []
    | QueryTypeConverter.Inbound =>
      inboundLoop (vertex_values.map (fun p => p.1)) type_filter high_filter
        low_filter limit store.edges []
termination_by structural q

end

/-! ## Transaction operations (`impl Transaction for MemoryTransaction`)

Each operation takes the caller's `account_id` and the current store
explicitly (the `Arc<RwLock<_>>` indirection is state passing here);
`create_edge` additionally takes the instant `Utc::now()` returns. -/

/-- `MemoryTransaction::get_vertices`: resolve and project to the outward
`Vertex` form `(id, t)`. -/
def get_vertices (store : InternalMemoryDatastore) (q : VertexQuery) :
    List (Uuid × Ty) :=
  (get_vertex_values_by_query store q).map (fun p => (p.1, p.2.t))

/-- The removal loop of `delete_vertices`: for each resolved `(uuid, value)`,
remove `uuid` from the map when `value.owner_id` is the caller. -/
def deleteVerticesLoop (account_id : Uuid) :
    List (Uuid × VertexValue) → List (Uuid × VertexValue) →
    List (Uuid × VertexValue)
  | [], vertices => vertices
  | (uuid, value) :: rest, vertices =>
    deleteVerticesLoop account_id rest
      (if value.owner_id = account_id then listRemove uuid vertices else vertices)

/-- `MemoryTransaction::delete_vertices`.  The Rust body always ends in
`Ok(())`; the only failure channel is the resolver, which is total. -/
def delete_vertices (account_id : Uuid) (store : InternalMemoryDatastore)
    (q : VertexQuery) : Except Error InternalMemoryDatastore :=
  let vertex_values := get_vertex_values_by_query store q
  Except.ok
    { store with vertices := deleteVerticesLoop account_id vertex_values store.vertices }

/-- `MemoryTransaction::create_edge`: check the outbound vertex exists and is
owned by the caller and the inbound vertex exists, then upsert
`(weight, now)` under the key. -/
def create_edge (account_id : Uuid) (now : Instant)
    (store : InternalMemoryDatastore) (key : EdgeKey) (weight : Weight) :
    Except Error InternalMemoryDatastore :=
  match listGet store.vertices key.outbound_id with
  | some value =>
    if value.owner_id ≠ account_id then Except.error Error.Unauthorized
    else if (listGet store.vertices key.inbound_id).isNone then
      Except.error Error.VertexNotFound
    else Except.ok { store with edges := listInsert key (weight, now) store.edges }
  | none => Except.error Error.VertexNotFound

/-- `MemoryTransaction::get_edges`: resolve and project to the outward `Edge`
form (the projection is the identity on the triple here). -/
def get_edges (store : InternalMemoryDatastore) (q : EdgeQuery) :
    List (EdgeKey × Weight × Instant) :=
  get_edge_values_by_query store q

/-- The collection loop of `delete_edges`: for each resolved edge, look up its
outbound vertex — `.expect(...)` panics when it is absent, embedded as
`none` — and keep the key when that vertex is owned by the caller. -/
def collectDeletableEdges (account_id : Uuid)
    (vertices : List (Uuid × VertexValue)) :
    List (EdgeKey × Weight × Instant) → Option (List EdgeKey)
  | [] => some []
  | (key, _, _) :: rest =>
    match listGet vertices key.outbound_id with
    | none => none
    | some vertex_value =>
      match collectDeletableEdges account_id vertices rest with
      | none => none
      | some keys =>
        some (if vertex_value.owner_id = account_id then key :: keys else keys)

/-- `MemoryTransaction::delete_edges`; `none` is the panic of the `.expect`
on an absent outbound vertex. -/
def delete_edges (account_id : Uuid) (store : InternalMemoryDatastore)
    (q : EdgeQuery) : Option InternalMemoryDatastore :=
  let edge_values := get_edge_values_by_query store q
  match collectDeletableEdges account_id store.vertices edge_values with
  | none => none
  | some deletable_edges =>
    some { store with
      edges := deletable_edges.foldl (fun m key => listRemove key m) store.edges }

/-- `MemoryTransaction::get_global_metadata`. -/
def get_global_metadata (store : InternalMemoryDatastore) (name : String) :
    Except Error JsonValue :=
  match listGet store.global_metadata name with
  | some value => Except.ok value
  | none => Except.error Error.MetadataNotFound

/-- `MemoryTransaction::set_global_metadata`. -/
def set_global_metadata (store : InternalMemoryDatastore) (name : String)
    (value : JsonValue) : Except Error InternalMemoryDatastore :=
  Except.ok { store with global_metadata := listInsert name value store.global_metadata }

/-- `MemoryTransaction::delete_global_metadata`: remove, then `Ok` exactly
when a binding was removed. -/
def delete_global_metadata (store : InternalMemoryDatastore) (name : String) :
    Except Error InternalMemoryDatastore :=
  if (listGet store.global_metadata name).isSome then
    Except.ok { store with global_metadata := listRemove name store.global_metadata }
  else Except.error Error.MetadataNotFound

/-- The observable outcome of an operation that may panic instead of
returning: `panicked msg` is a Rust panic with that message. -/
inductive Outcome (α : Type) where
  | returned (a : α)
  | panicked (msg : String)
deriving DecidableEq

/-- `MemoryTransaction::rollback`: the body is `unimplemented!()`, which
panics with the message "not implemented"; no `Result` is ever returned. -/
def rollback : Outcome (Except Error Unit) :=
  Outcome.panicked "not implemented"

/-! ## Specification-level definitions -/

/-- Invariant I1 of the spec: every `EdgeKey` present in `edges` has
`outbound_id` and `inbound_id` present in `vertices`. -/
def I1 (store : InternalMemoryDatastore) : Prop :=
  ∀ e ∈ store.edges, (listGet store.vertices e.1.outbound_id).isSome ∧
    (listGet store.vertices e.1.inbound_id).isSome

instance (store : InternalMemoryDatastore) : Decidable (I1 store) :=
  inferInstanceAs (Decidable (∀ e ∈ store.edges,
    (listGet store.vertices e.1.outbound_id).isSome ∧
    (listGet store.vertices e.1.inbound_id).isSome))

/-- The `BTreeMap` representation invariant for the edge index: entries in
strictly ascending `EdgeKey` order. -/
def edgesSorted (store : InternalMemoryDatastore) : Prop :=
  store.edges.Pairwise (fun a b => a.1 < b.1)

instance (store : InternalMemoryDatastore) : Decidable (edgesSorted store) :=
  inferInstanceAs (Decidable (store.edges.Pairwise
    (fun (a b : EdgeKey × Weight × Instant) => a.1 < b.1)))

/-- `delete_vertices` removes id `id` exactly when some resolved pair carries
that id with an `owner_id` equal to the caller's. -/
def removedByDelete (resolved : List (Uuid × VertexValue)) (account_id : Uuid)
    (id : Uuid) : Bool :=
  resolved.any (fun r => decide (r.1 = id) && decide (r.2.owner_id = account_id))

/-- The keys `delete_edges` deletes: resolved edges whose outbound vertex is
owned by the caller. -/
def deletableEdgeKeys (account_id : Uuid) (store : InternalMemoryDatastore)
    (q : EdgeQuery) : List EdgeKey :=
  (get_edge_values_by_query store q).filterMap (fun r =>
    match listGet store.vertices r.1.outbound_id with
    | some vv => if vv.owner_id = account_id then some r.1 else none
    | none => none)

/-- The id list a vertex `Pipe` materializes: the converter's endpoint of each
of the first `limit` resolved edges. -/
def pipeProjectedIds (edge_values : List (EdgeKey × Weight × Instant))
    (converter : QueryTypeConverter) (limit : Nat) : List Uuid :=
  match converter with
  | QueryTypeConverter.Outbound =>
    (edge_values.take limit).map (fun e => e.1.outbound_id)
  | QueryTypeConverter.Inbound =>
    (edge_values.take limit).map (fun e => e.1.inbound_id)

/-- A small concrete store: vertices `1`, `2` owned by account `7`, and edges
`1 -a-> 2` (weight 5, time 10) and `1 -b-> 2` (weight 6, time 20). -/
def sampleStore : InternalMemoryDatastore :=
  ⟨[], [], [], [(⟨1, ⟨"a"⟩, 2⟩, (5, 10)), (⟨1, ⟨"b"⟩, 2⟩, (6, 20))], [], [],
   [(1, ⟨7, ⟨"p"⟩⟩), (2, ⟨7, ⟨"q"⟩⟩)]⟩

/-- `sampleStore` after `create_edge(EdgeKey(1, "c", 2), 42)` at instant 99. -/
def sampleStoreC : InternalMemoryDatastore :=
  ⟨[], [], [],
   [(⟨1, ⟨"a"⟩, 2⟩, (5, 10)), (⟨1, ⟨"b"⟩, 2⟩, (6, 20)), (⟨1, ⟨"c"⟩, 2⟩, (42, 99))],
   [], [], [(1, ⟨7, ⟨"p"⟩⟩), (2, ⟨7, ⟨"q"⟩⟩)]⟩

/-- The empty store. -/
def emptyStore : InternalMemoryDatastore := ⟨[], [], [], [], [], [], []⟩

/-- A store holding only the global metadata binding `"k" ↦ 1`. -/
def gmStore : InternalMemoryDatastore :=
  ⟨[], [], [], [], [("k", JsonValue.num 1)], [], []⟩

/-- A store with two vertices `1`, `2`, both owned by account `5`. -/
def delStore : InternalMemoryDatastore :=
  ⟨[], [], [], [], [], [], [(1, ⟨5, ⟨"t"⟩⟩), (2, ⟨5, ⟨"t"⟩⟩)]⟩

/-- `delStore` after `delete_vertices(All {start: none, limit: 1})` as
account `5`. -/
def delStoreAfter : InternalMemoryDatastore :=
  ⟨[], [], [], [], [], [], [(2, ⟨5, ⟨"t"⟩⟩)]⟩

/-! ## Map lemmas -/

theorem listGet_listInsert_self {K V : Type} [DecidableEq K] [LT K]
    [inst : ∀ a b : K, Decidable (a < b)] (k : K) (v : V) :
    ∀ l : List (K × V), listGet (listInsert k v l) k = some v := by
  intro l
  induction l with
  | nil => simp [listInsert, listGet]
  | cons hd tl ih =>
    obtain ⟨k', v'⟩ := hd
    by_cases hlt : k < k'
    · simp [listInsert, hlt, listGet]
    · by_cases heq : k = k'
      · subst heq
        simp [listInsert, hlt, listGet]
      · simpa [listInsert, hlt, heq, listGet, Ne.symm heq] using ih

theorem listGet_listRemove_self {K V : Type} [DecidableEq K] (k : K)
    (l : List (K × V)) : listGet (listRemove k l) k = none := by
  induction l with
  | nil => simp [listRemove, listGet]
  | cons hd tl ih =>
    obtain ⟨k', v'⟩ := hd
    by_cases h : k' = k
    · simpa [listRemove, h] using ih
    · simpa [listRemove, listGet, h] using ih

theorem mem_of_listGet_eq_some {K V : Type} [DecidableEq K] {l : List (K × V)}
    {k : K} {v : V} (h : listGet l k = some v) : (k, v) ∈ l := by
  induction l with
  | nil => simp [listGet] at h
  | cons hd tl ih =>
    obtain ⟨k', v'⟩ := hd
    by_cases hk : k' = k
    · subst hk
      simp [listGet] at h
      simp [h]
    · simp [listGet, hk] at h
      exact List.mem_cons_of_mem _ (ih h)

/-- On a duplicate-free association list, a stored pair whose key resolves is
the resolved pair. -/
theorem listGet_eq_of_mem_of_pairwise {K V : Type} [DecidableEq K]
    {l : List (K × V)} (hnd : l.Pairwise (fun a b => a.1 ≠ b.1)) {p : K × V}
    (hp : p ∈ l) : listGet l p.1 = some p.2 := by
  induction l with
  | nil => simp at hp
  | cons hd tl ih =>
    rcases List.mem_cons.mp hp with h | h
    · subst h
      simp [listGet]
    · have hne : hd.1 ≠ p.1 := (List.pairwise_cons.mp hnd).1 p h
      obtain ⟨k', v'⟩ := hd
      simp [listGet, hne]
      exact ih (List.pairwise_cons.mp hnd).2 h

/-! ## Query-engine lemmas -/

theorem exists_rel_of_forall₂_of_mem {α β : Type} {R : α → β → Prop} :
    ∀ {as : List α} {bs : List β}, List.Forall₂ R as bs → ∀ {a : α}, a ∈ as →
      ∃ b ∈ bs, R a b := by
  intro as bs h
  induction h with
  | nil => intro a ha; simp at ha
  | cons hr _ ih =>
    intro a ha
    rcases List.mem_cons.mp ha with h | h
    · subst h
      exact ⟨_, List.mem_cons_self _ _, hr⟩
    · obtain ⟨b, hb, hrb⟩ := ih h
      exact ⟨b, List.mem_cons_of_mem _ hb, hrb⟩

/-- Everything the outbound walk appends is drawn, in order, from its input
range, has the scanned vertex as its `outbound_id`, and passes every filter;
the early-return flag is set exactly when the accumulated length reached the
limit, and accumulating below the limit keeps the length below it. -/
theorem outboundWalk_spec (id : Uuid) (type_filter : Option Ty)
    (high_filter low_filter : Option Instant) (limit : Nat) :
    ∀ (l acc : List (EdgeKey × Weight × Instant)),
      ∃ g b, outboundWalk id type_filter high_filter low_filter limit l acc =
          (acc ++ g, b) ∧
        g.Sublist l ∧
        (∀ e ∈ g, e.1.outbound_id = id ∧ typeMismatch type_filter e.1 = false ∧
          highReject high_filter e.2.2 = false ∧
          lowReject low_filter e.2.2 = false) ∧
        (b = true → (acc ++ g).length = limit) ∧
        (b = false → acc.length < limit → (acc ++ g).length < limit) := by
  intro l
  induction l with
  | nil =>
    intro acc
    refine ⟨[], false, by simp [outboundWalk], List.Sublist.refl _, by simp, by simp, ?_⟩
    intro _ h
    simpa using h
  | cons hd rest ih =>
    intro acc
    obtain ⟨key, weight, update_datetime⟩ := hd
    by_cases hout : key.outbound_id ≠ id
    · refine ⟨[], false, by simp [outboundWalk, hout], List.nil_sublist _, by simp, by simp, ?_⟩
      intro _ h
      simpa using h
    · by_cases htf : typeMismatch type_filter key = true
      · refine ⟨[], false, by simp [outboundWalk, hout, htf], List.nil_sublist _, by simp,
          by simp, ?_⟩
        intro _ h
        simpa using h
      · by_cases hhf : highReject high_filter update_datetime = true
        · obtain ⟨g, b, heq, hsub, hmem, hbt, hbf⟩ := ih acc
          exact ⟨g, b, by simpa [outboundWalk, hout, htf, hhf] using heq,
            hsub.cons _, hmem, hbt, hbf⟩
        · by_cases hlf : lowReject low_filter update_datetime = true
          · obtain ⟨g, b, heq, hsub, hmem, hbt, hbf⟩ := ih acc
            exact ⟨g, b, by simpa [outboundWalk, hout, htf, hhf, hlf] using heq,
              hsub.cons _, hmem, hbt, hbf⟩
          · have hout' : key.outbound_id = id := by
              by_contra hc
              exact hout hc
            by_cases hlim : acc.length + 1 = limit
            · refine ⟨[(key, weight, update_datetime)], true,
                by simp [outboundWalk, hout, htf, hhf, hlf, hlim], ?_, ?_, ?_, ?_⟩
              · exact List.Sublist.cons₂ _ (List.nil_sublist rest)
              · intro e he
                rcases List.mem_singleton.mp he with rfl
                exact ⟨hout', Bool.not_eq_true _ ▸ htf, Bool.not_eq_true _ ▸ hhf,
                  Bool.not_eq_true _ ▸ hlf⟩
              · intro _
                simpa using hlim
              · intro hfalse
                simp at hfalse
            · obtain ⟨g, b, heq, hsub, hmem, hbt, hbf⟩ :=
                ih (acc ++ [(key, weight, update_datetime)])
              have heq' : outboundWalk id type_filter high_filter low_filter limit rest
                  (acc ++ [(key, weight, update_datetime)]) =
                  (acc ++ (key, weight, update_datetime) :: g, b) := by
                rw [heq, List.append_assoc]
                simp
              refine ⟨(key, weight, update_datetime) :: g, b,
                by simp [outboundWalk, hout, htf, hhf, hlf, hlim, heq'], hsub.cons₂ _,
                ?_, ?_, ?_⟩
              · intro e he
                rcases List.mem_cons.mp he with rfl | hrest
                · exact ⟨hout', Bool.not_eq_true _ ▸ htf, Bool.not_eq_true _ ▸ hhf,
                    Bool.not_eq_true _ ▸ hlf⟩
                · exact hmem e hrest
              · intro hb
                have := hbt hb
                simp at this ⊢
                omega
              · intro hb hacc
                have := hbf hb (by simp; omega)
                simp at this ⊢
                omega

theorem map_nil_flatten {α β : Type} (l : List α) :
    (l.map (fun _ => ([] : List β))).flatten = [] := by
  induction l with
  | nil => simp
  | cons hd tl ih => simp [ih]

theorem forall₂_map_nil {α β : Type} {R : List β → α → Prop}
    (hR : ∀ a, R [] a) (l : List α) : List.Forall₂ R (l.map (fun _ => [])) l := by
  induction l with
  | nil => simp
  | cons hd tl ih => exact List.Forall₂.cons (hR hd) ih

/-- The outbound loop produces one group per source vertex, in source order:
the result list appends, to the accumulator, the concatenation of groups,
where each group is drawn in order from the range scan of its vertex and
every element bears that vertex's id and passes the filters; starting below
the limit, the total length stays at most the limit. -/
theorem outboundLoop_spec (edges : List (EdgeKey × Weight × Instant))
    (type_filter : Option Ty) (high_filter low_filter : Option Instant)
    (limit : Nat) :
    ∀ (vertex_values : List (Uuid × VertexValue))
      (acc : List (EdgeKey × Weight × Instant)),
      ∃ gs : List (List (EdgeKey × Weight × Instant)),
        outboundLoop edges type_filter high_filter low_filter limit
            vertex_values acc = acc ++ gs.flatten ∧
        List.Forall₂ (fun g p =>
          g.Sublist (rangeFrom (scanLowerBound p.1 type_filter) edges) ∧
          ∀ e ∈ g, e.1.outbound_id = p.1 ∧ typeMismatch type_filter e.1 = false ∧
            highReject high_filter e.2.2 = false ∧ lowReject low_filter e.2.2 = false)
          gs vertex_values ∧
        (acc.length < limit → (acc ++ gs.flatten).length ≤ limit) := by
  intro vertex_values
  induction vertex_values with
  | nil =>
    intro acc
    refine ⟨[], by simp [outboundLoop], List.Forall₂.nil, ?_⟩
    intro h
    simp
    omega
  | cons hd rest ih =>
    intro acc
    obtain ⟨id, vval⟩ := hd
    obtain ⟨g, b, heq, hsub, hmem, hbt, hbf⟩ :=
      outboundWalk_spec id type_filter high_filter low_filter limit
        (rangeFrom (scanLowerBound id type_filter) edges) acc
    cases b with
    | true =>
      refine ⟨g :: rest.map (fun _ => []), ?_, ?_, ?_⟩
      · simp only [outboundLoop, heq]
        simp [map_nil_flatten]
      · exact List.Forall₂.cons ⟨hsub, hmem⟩
          (forall₂_map_nil (fun a => ⟨List.nil_sublist _, by simp⟩) rest)
      · intro _
        simp [map_nil_flatten]
        exact Nat.le_of_eq (by simpa using hbt rfl)
    | false =>
      obtain ⟨gs, heq', hfa, hlen⟩ := ih (acc ++ g)
      refine ⟨g :: gs, ?_, List.Forall₂.cons ⟨hsub, hmem⟩ hfa, ?_⟩
      · simp only [outboundLoop, heq, heq', List.flatten_cons, List.append_assoc]
      · intro hacc
        have h1 : (acc ++ g).length < limit := hbf rfl hacc
        have := hlen h1
        simp only [List.flatten_cons] at this ⊢
        simpa [List.append_assoc] using this

/-- The inbound loop appends, to the accumulator, entries drawn in order from
the full edge scan, each with a candidate `inbound_id` and passing every
filter; starting below the limit, the total length stays at most the
limit. -/
theorem inboundLoop_spec (candidate_ids : List Uuid) (type_filter : Option Ty)
    (high_filter low_filter : Option Instant) (limit : Nat) :
    ∀ (l acc : List (EdgeKey × Weight × Instant)),
      ∃ g, inboundLoop candidate_ids type_filter high_filter low_filter limit
          l acc = acc ++ g ∧
        g.Sublist l ∧
        (∀ e ∈ g, e.1.inbound_id ∈ candidate_ids ∧
          typeMismatch type_filter e.1 = false ∧
          highReject high_filter e.2.2 = false ∧
          lowReject low_filter e.2.2 = false) ∧
        (acc.length < limit → (acc ++ g).length ≤ limit) := by
  intro l
  induction l with
  | nil =>
    intro acc
    refine ⟨[], by simp [inboundLoop], List.Sublist.refl _, by simp, ?_⟩
    intro h
    simpa using Nat.le_of_lt h
  | cons hd rest ih =>
    intro acc
    obtain ⟨key, weight, update_datetime⟩ := hd
    by_cases hin : key.inbound_id ∉ candidate_ids
    · obtain ⟨g, heq, hsub, hmem, hlen⟩ := ih acc
      exact ⟨g, by simpa [inboundLoop, hin] using heq, hsub.cons _, hmem, hlen⟩
    · by_cases htf : typeMismatch type_filter key = true
      · obtain ⟨g, heq, hsub, hmem, hlen⟩ := ih acc
        exact ⟨g, by simpa [inboundLoop, hin, htf] using heq, hsub.cons _, hmem, hlen⟩
      · by_cases hhf : highReject high_filter update_datetime = true
        · obtain ⟨g, heq, hsub, hmem, hlen⟩ := ih acc
          exact ⟨g, by simpa [inboundLoop, hin, htf, hhf] using heq, hsub.cons _,
            hmem, hlen⟩
        · by_cases hlf : lowReject low_filter update_datetime = true
          · obtain ⟨g, heq, hsub, hmem, hlen⟩ := ih acc
            exact ⟨g, by simpa [inboundLoop, hin, htf, hhf, hlf] using heq,
              hsub.cons _, hmem, hlen⟩
          · have hin' : key.inbound_id ∈ candidate_ids := by
              by_contra hc
              exact hin hc
            by_cases hlim : acc.length + 1 = limit
            · refine ⟨[(key, weight, update_datetime)], ?_, ?_, ?_, ?_⟩
              · simp [inboundLoop, hin, htf, hhf, hlf, hlim]
              · exact List.Sublist.cons₂ _ (List.nil_sublist rest)
              · intro e he
                rcases List.mem_singleton.mp he with rfl
                exact ⟨hin', Bool.not_eq_true _ ▸ htf, Bool.not_eq_true _ ▸ hhf,
                  Bool.not_eq_true _ ▸ hlf⟩
              · intro _
                simp
                omega
            · obtain ⟨g, heq, hsub, hmem, hlen⟩ :=
                ih (acc ++ [(key, weight, update_datetime)])
              have heq' : inboundLoop candidate_ids type_filter high_filter
                  low_filter limit rest (acc ++ [(key, weight, update_datetime)]) =
                  (acc ++ (key, weight, update_datetime) :: g) := by
                rw [heq, List.append_assoc]
                simp
              refine ⟨(key, weight, update_datetime) :: g,
                by simp [inboundLoop, hin, htf, hhf, hlf, hlim, heq'], hsub.cons₂ _,
                ?_, ?_⟩
              · intro e he
                rcases List.mem_cons.mp he with rfl | hrest
                · exact ⟨hin', Bool.not_eq_true _ ▸ htf, Bool.not_eq_true _ ▸ hhf,
                    Bool.not_eq_true _ ▸ hlf⟩
                · exact hmem e hrest
              · intro hacc
                have := hlen (by simp; omega)
                simp at this ⊢
                omega

theorem edge_pipe_outbound_eq (store : InternalMemoryDatastore)
    (vertex_query : VertexQuery) (type_filter : Option Ty)
    (high_filter low_filter : Option Instant) (limit : Nat) :
    get_edge_values_by_query store
        (EdgeQuery.Pipe vertex_query QueryTypeConverter.Outbound type_filter
          high_filter low_filter limit) =
      outboundLoop store.edges type_filter high_filter low_filter limit
        (get_vertex_values_by_query store vertex_query) [] := by
  simp [get_edge_values_by_query]

theorem edge_pipe_inbound_eq (store : InternalMemoryDatastore)
    (vertex_query : VertexQuery) (type_filter : Option Ty)
    (high_filter low_filter : Option Instant) (limit : Nat) :
    get_edge_values_by_query store
        (EdgeQuery.Pipe vertex_query QueryTypeConverter.Inbound type_filter
          high_filter low_filter limit) =
      inboundLoop ((get_vertex_values_by_query store vertex_query).map (fun p => p.1))
        type_filter high_filter low_filter limit store.edges [] := by
  simp [get_edge_values_by_query]

theorem vertex_pipe_eq (store : InternalMemoryDatastore)
    (edge_query : EdgeQuery) (converter : QueryTypeConverter) (limit : Nat) :
    get_vertex_values_by_query store (VertexQuery.Pipe edge_query converter limit) =
      (pipeProjectedIds (get_edge_values_by_query store edge_query) converter
          limit).filterMap
        (fun id => (listGet store.vertices id).map (fun v => (id, v))) := by
  cases converter <;> simp [get_vertex_values_by_query, pipeProjectedIds]

/-- Every pair the vertex resolver returns is present in the vertex map. -/
theorem mem_vertex_values {store : InternalMemoryDatastore} {q : VertexQuery}
    {x : Uuid × VertexValue} (hx : x ∈ get_vertex_values_by_query store q) :
    x ∈ store.vertices := by
  cases q with
  | All start_id limit =>
    cases start_id with
    | none =>
      simp only [get_vertex_values_by_query] at hx
      exact List.take_subset _ _ hx
    | some s =>
      simp only [get_vertex_values_by_query] at hx
      exact List.mem_of_mem_filter (List.take_subset _ _ hx)
  | Vertices ids =>
    simp only [get_vertex_values_by_query, List.mem_filterMap] at hx
    obtain ⟨id, _, hget⟩ := hx
    cases hv : listGet store.vertices id with
    | none => simp [hv] at hget
    | some v =>
      simp [hv] at hget
      subst hget
      exact mem_of_listGet_eq_some hv
  | Pipe edge_query converter limit =>
    simp only [get_vertex_values_by_query, List.mem_filterMap] at hx
    obtain ⟨id, _, hget⟩ := hx
    cases hv : listGet store.vertices id with
    | none => simp [hv] at hget
    | some v =>
      simp [hv] at hget
      subst hget
      exact mem_of_listGet_eq_some hv

/-- Every triple the edge resolver returns is present in the edge map. -/
theorem mem_edge_values {store : InternalMemoryDatastore} {q : EdgeQuery}
    {x : EdgeKey × Weight × Instant} (hx : x ∈ get_edge_values_by_query store q) :
    x ∈ store.edges := by
  cases q with
  | Edges keys =>
    simp only [get_edge_values_by_query, List.mem_filterMap] at hx
    obtain ⟨key, _, hget⟩ := hx
    cases hv : listGet store.edges key with
    | none => simp [hv] at hget
    | some wd =>
      simp [hv] at hget
      subst hget
      exact mem_of_listGet_eq_some hv
  | Pipe vertex_query converter type_filter high_filter low_filter limit =>
    cases converter with
    | Outbound =>
      rw [edge_pipe_outbound_eq] at hx
      obtain ⟨gs, heq, hfa, _⟩ :=
        outboundLoop_spec store.edges type_filter high_filter low_filter limit
          (get_vertex_values_by_query store vertex_query) []
      rw [heq] at hx
      simp only [List.nil_append, List.mem_flatten] at hx
      obtain ⟨g, hg, hxg⟩ := hx
      obtain ⟨p, _, hsub, _⟩ := exists_rel_of_forall₂_of_mem hfa hg
      have : x ∈ rangeFrom (scanLowerBound p.1 type_filter) store.edges :=
        hsub.subset hxg
      exact List.mem_of_mem_filter this
    | Inbound =>
      rw [edge_pipe_inbound_eq] at hx
      obtain ⟨g, heq, hsub, _, _⟩ :=
        inboundLoop_spec ((get_vertex_values_by_query store vertex_query).map (fun p => p.1))
          type_filter high_filter low_filter limit store.edges []
      rw [heq] at hx
      simp only [List.nil_append] at hx
      exact hsub.subset hx

/-! ## Deletion-loop characterizations -/

/-- The `delete_vertices` loop filters out exactly the ids that some resolved
pair marks as owned by the caller. -/
theorem deleteVerticesLoop_eq (account_id : Uuid) :
    ∀ (vvs : List (Uuid × VertexValue)) (verts : List (Uuid × VertexValue)),
      deleteVerticesLoop account_id vvs verts =
        verts.filter (fun p =>
          !(vvs.any (fun r => decide (r.1 = p.1) && decide (r.2.owner_id = account_id)))) := by
  intro vvs
  induction vvs with
  | nil =>
    intro verts
    simp [deleteVerticesLoop]
  | cons r rest ih =>
    intro verts
    simp only [deleteVerticesLoop]
    by_cases h : r.2.owner_id = account_id
    · rw [if_pos h, ih, listRemove, List.filter_filter]
      apply List.filter_congr
      intro p _
      by_cases hp : r.1 = p.1
      · simp [hp, h]
      · simp [hp, h, Ne.symm hp]
    · rw [if_neg h, ih]
      apply List.filter_congr
      intro p _
      simp [h]

/-- Sequential `BTreeMap::remove` of a list of keys filters out exactly the
entries keyed by one of them. -/
theorem foldl_listRemove_eq :
    ∀ (ks : List EdgeKey) (edges : List (EdgeKey × Weight × Instant)),
      ks.foldl (fun m key => listRemove key m) edges =
        edges.filter (fun e => !(decide (e.1 ∈ ks))) := by
  intro ks
  induction ks with
  | nil =>
    intro edges
    simp
  | cons k rest ih =>
    intro edges
    simp only [List.foldl_cons]
    rw [ih, listRemove, List.filter_filter]
    apply List.filter_congr
    intro e _
    by_cases he : e.1 = k <;> simp [he]

/-- When every resolved edge's outbound vertex resolves, the collection loop
does not panic and keeps exactly the keys whose outbound vertex the caller
owns. -/
theorem collectDeletableEdges_eq (account_id : Uuid)
    (vertices : List (Uuid × VertexValue)) :
    ∀ l : List (EdgeKey × Weight × Instant),
      (∀ r ∈ l, (listGet vertices r.1.outbound_id).isSome) →
      collectDeletableEdges account_id vertices l =
        some (l.filterMap (fun r =>
          match listGet vertices r.1.outbound_id with
          | some vv => if vv.owner_id = account_id then some r.1 else none
          | none => none)) := by
  intro l
  induction l with
  | nil =>
    intro _
    simp [collectDeletableEdges]
  | cons r rest ih =>
    intro hall
    have hr : (listGet vertices r.1.outbound_id).isSome :=
      hall r (List.mem_cons_self _ _)
    cases hv : listGet vertices r.1.outbound_id with
    | none => simp [hv] at hr
    | some vv =>
      obtain ⟨key, weight, update_datetime⟩ := r
      have hrest := ih (fun x hx => hall x (List.mem_cons_of_mem _ hx))
      by_cases hown : vv.owner_id = account_id
      · simp [collectDeletableEdges, hv, hrest, hown]
      · simp [collectDeletableEdges, hv, hrest, hown]

/-! ## Claims -/

/-- C1 (amended): for every store, vertex query resolution with limit 0
yields the empty list, both for `All` (with or without a start id) and for
`Pipe` with either converter.  (The original claim also asserted this for
edge `Pipe` queries; the code's limit check runs only after a push, so a
limit of 0 never fires there — see the counterexample.) -/
theorem claim_C1 (store : InternalMemoryDatastore) (start_id : Option Uuid)
    (edge_query : EdgeQuery) (converter : QueryTypeConverter) :
    get_vertex_values_by_query store (VertexQuery.All start_id 0) = [] ∧
    get_vertex_values_by_query store (VertexQuery.Pipe edge_query converter 0) = [] := by
  constructor
  · cases start_id <;> simp [get_vertex_values_by_query]
  · cases converter <;> simp [get_vertex_values_by_query]

/-- C1 counterexample: on a store with vertex `1` and two edges out of it, an
edge `Pipe` over `Vertices [1]` with limit 0 returns both edges, not `[]`:
`results.len() == limit` is tested only after a push, so it never equals 0. -/
theorem claim_C1_counterexample :
    get_edge_values_by_query sampleStore
        (EdgeQuery.Pipe (VertexQuery.Vertices [1]) QueryTypeConverter.Outbound
          none none none 0) ≠ [] := by
  decide

/-- C2 (amended): `rollback` never returns at all — it panics with the
message "not implemented" (`unimplemented!()`); in particular it neither
succeeds nor returns the `NotImplemented` error. -/
theorem claim_C2 :
    rollback = Outcome.panicked "not implemented" ∧
    ∀ r : Except Error Unit, rollback ≠ Outcome.returned r := by
  constructor
  · rfl
  · intro r
    simp [rollback]

/-- C2 counterexample: `rollback` does not return the `NotImplemented` error
to the caller (it panics instead of returning). -/
theorem claim_C2_counterexample :
    rollback ≠ Outcome.returned (Except.error Error.NotImplemented) := by
  decide

/-- C5: `create_edge` returns `VertexNotFound` when the outbound vertex is
absent; `Unauthorized` when it is present but owned by another account;
`VertexNotFound` when it is present and owned by the caller but the inbound
vertex is absent; and succeeds when the outbound vertex is present and
caller-owned and the inbound vertex is present. -/
theorem claim_C5 (store : InternalMemoryDatastore) (account_id : Uuid)
    (now : Instant) (key : EdgeKey) (weight : Weight) :
    (listGet store.vertices key.outbound_id = none →
      create_edge account_id now store key weight =
        Except.error Error.VertexNotFound) ∧
    (∀ vv, listGet store.vertices key.outbound_id = some vv →
      vv.owner_id ≠ account_id →
      create_edge account_id now store key weight =
        Except.error Error.Unauthorized) ∧
    (∀ vv, listGet store.vertices key.outbound_id = some vv →
      vv.owner_id = account_id →
      listGet store.vertices key.inbound_id = none →
      create_edge account_id now store key weight =
        Except.error Error.VertexNotFound) ∧
    (∀ vv iv, listGet store.vertices key.outbound_id = some vv →
      vv.owner_id = account_id →
      listGet store.vertices key.inbound_id = some iv →
      ∃ store', create_edge account_id now store key weight =
        Except.ok store') := by
  refine ⟨?_, ?_, ?_, ?_⟩
  · intro h
    simp [create_edge, h]
  · intro vv hv hown
    simp [create_edge, hv, hown]
  · intro vv hv hown hin
    simp [create_edge, hv, hown, hin]
  · intro vv iv hv hown hin
    refine ⟨{ store with edges := listInsert key (weight, now) store.edges }, ?_⟩
    simp [create_edge, hv, hown, hin]

/-- C5 witness: the four cases at concrete stores — absent outbound vertex,
foreign owner, absent inbound vertex, and success. -/
theorem claim_C5_witness :
    create_edge 7 99 sampleStore ⟨3, ⟨"t"⟩, 2⟩ 0 =
      Except.error Error.VertexNotFound ∧
    create_edge 8 99 sampleStore ⟨1, ⟨"t"⟩, 2⟩ 0 =
      Except.error Error.Unauthorized ∧
    create_edge 7 99 sampleStore ⟨1, ⟨"t"⟩, 5⟩ 0 =
      Except.error Error.VertexNotFound ∧
    ∃ store', create_edge 7 99 sampleStore ⟨1, ⟨"a"⟩, 2⟩ 42 = Except.ok store' :=
  ⟨(claim_C5 sampleStore 7 99 ⟨3, ⟨"t"⟩, 2⟩ 0).1 (by decide),
   (claim_C5 sampleStore 8 99 ⟨1, ⟨"t"⟩, 2⟩ 0).2.1 ⟨7, ⟨"p"⟩⟩ (by decide) (by decide),
   (claim_C5 sampleStore 7 99 ⟨1, ⟨"t"⟩, 5⟩ 0).2.2.1 ⟨7, ⟨"p"⟩⟩ (by decide)
     (by decide) (by decide),
   (claim_C5 sampleStore 7 99 ⟨1, ⟨"a"⟩, 2⟩ 42).2.2.2 ⟨7, ⟨"p"⟩⟩ ⟨7, ⟨"q"⟩⟩
     (by decide) (by decide) (by decide)⟩

/-- C6: `create_edge` has upsert semantics — whenever it succeeds (in
particular when the key was already bound to a different weight and
timestamp), the edge map binds the key to `(weight, now)`, and resolving
`Edges { keys: [key] }` afterwards yields exactly that one edge. -/
theorem claim_C6 (account_id : Uuid) (now : Instant)
    (store : InternalMemoryDatastore) (key : EdgeKey) (weight : Weight)
    (store' : InternalMemoryDatastore)
    (h : create_edge account_id now store key weight = Except.ok store') :
    listGet store'.edges key = some (weight, now) ∧
    get_edge_values_by_query store' (EdgeQuery.Edges [key]) =
      [(key, weight, now)] := by
  have hs : store' = { store with edges := listInsert key (weight, now) store.edges } := by
    unfold create_edge at h
    cases hv : listGet store.vertices key.outbound_id with
    | none => simp [hv] at h
    | some vv =>
      rw [hv] at h
      by_cases hown : vv.owner_id ≠ account_id
      · simp [hown] at h
      · by_cases hin : (listGet store.vertices key.inbound_id).isNone
        · simp [hown, hin] at h
        · simp [hown, hin] at h
          exact h.symm
  subst hs
  constructor
  · exact listGet_listInsert_self key (weight, now) store.edges
  · simp [get_edge_values_by_query, listGet_listInsert_self]

/-- C6 witness: re-inserting over a two-edge store at instant 99 binds the
key to the new weight and timestamp, and the pointwise query returns it. -/
theorem claim_C6_witness :
    listGet sampleStoreC.edges ⟨1, ⟨"c"⟩, 2⟩ = some (42, 99) ∧
    get_edge_values_by_query sampleStoreC (EdgeQuery.Edges [⟨1, ⟨"c"⟩, 2⟩]) =
      [(⟨1, ⟨"c"⟩, 2⟩, 42, 99)] :=
  claim_C6 7 99 sampleStore ⟨1, ⟨"c"⟩, 2⟩ 42 sampleStoreC (by decide)

/-- C9: setting a global metadata binding makes `get` return the value;
after a successful delete, `get` and a second `delete` both report
`MetadataNotFound`. -/
theorem claim_C9 (store : InternalMemoryDatastore) (name : String)
    (value : JsonValue) :
    (∀ store₁, set_global_metadata store name value = Except.ok store₁ →
      get_global_metadata store₁ name = Except.ok value) ∧
    (∀ store₂, delete_global_metadata store name = Except.ok store₂ →
      get_global_metadata store₂ name = Except.error Error.MetadataNotFound ∧
      delete_global_metadata store₂ name =
        Except.error Error.MetadataNotFound) := by
  constructor
  · intro s1 h
    have hs : s1 = { store with
        global_metadata := listInsert name value store.global_metadata } := by
      simp [set_global_metadata] at h
      exact h.symm
    subst hs
    simp [get_global_metadata, listGet_listInsert_self]
  · intro s2 h
    unfold delete_global_metadata at h
    by_cases hh : (listGet store.global_metadata name).isSome
    · rw [if_pos hh] at h
      have hs : s2 = { store with
          global_metadata := listRemove name store.global_metadata } := by
        simpa using h.symm
      subst hs
      constructor
      · simp [get_global_metadata, listGet_listRemove_self]
      · simp [delete_global_metadata, listGet_listRemove_self]
    · rw [if_neg hh] at h
      simp at h

/-- C9 witness: the round trip at the binding `"k" ↦ 1` over the empty
store. -/
theorem claim_C9_witness :
    get_global_metadata gmStore "k" = Except.ok (JsonValue.num 1) ∧
    (get_global_metadata emptyStore "k" = Except.error Error.MetadataNotFound ∧
     delete_global_metadata emptyStore "k" =
       Except.error Error.MetadataNotFound) :=
  ⟨(claim_C9 emptyStore "k" (JsonValue.num 1)).1 gmStore (by decide),
   (claim_C9 gmStore "k" (JsonValue.num 1)).2 emptyStore (by decide)⟩

/-- C7 (amended): `delete_vertices` always returns `Ok`, removes from the
vertex map exactly the resolved vertices whose `owner_id` equals the
caller's (missing or unowned vertices are skipped), and re-running the query
afterwards returns none of the removed vertices.  (The original claim said
re-running returns only vertices not owned by the caller; with a limited
query the re-resolution can reach caller-owned vertices the first resolution
did not — see the counterexample.) -/
theorem claim_C7 (account_id : Uuid) (store : InternalMemoryDatastore)
    (q : VertexQuery) :
    ∃ store', delete_vertices account_id store q = Except.ok store' ∧
      store'.vertices = store.vertices.filter (fun p =>
        !(removedByDelete (get_vertex_values_by_query store q) account_id p.1)) ∧
      ∀ x ∈ get_vertex_values_by_query store' q,
        removedByDelete (get_vertex_values_by_query store q) account_id x.1 =
          false := by
  refine ⟨_, rfl, ?_, ?_⟩
  · simpa [removedByDelete] using
      deleteVerticesLoop_eq account_id (get_vertex_values_by_query store q)
        store.vertices
  · intro x hx
    have hmem := mem_vertex_values hx
    simp only [deleteVerticesLoop_eq] at hmem
    have := (List.mem_filter.mp hmem).2
    simpa [removedByDelete] using this

/-- C7 counterexample: with two caller-owned vertices and `All {limit: 1}`,
deleting resolves only vertex `1`; re-running the query immediately
afterwards returns vertex `2`, which the caller owns — the original claim's
final clause fails. -/
theorem claim_C7_counterexample :
    delete_vertices 5 delStore (VertexQuery.All none 1) =
      Except.ok delStoreAfter ∧
    get_vertices delStoreAfter (VertexQuery.All none 1) = [(2, ⟨"t"⟩)] ∧
    (2, (⟨5, ⟨"t"⟩⟩ : VertexValue)) ∈ delStoreAfter.vertices ∧
    (⟨5, ⟨"t"⟩⟩ : VertexValue).owner_id = 5 := by
  decide

/-- C8: on a store satisfying invariant I1, `delete_edges` does not panic
(the outbound-vertex lookup of every resolved edge succeeds) and removes
exactly the resolved edges whose outbound vertex the caller owns. -/
theorem claim_C8 (account_id : Uuid) (store : InternalMemoryDatastore)
    (q : EdgeQuery) (h : I1 store) :
    ∃ store', delete_edges account_id store q = some store' ∧
      store'.edges = store.edges.filter (fun e =>
        !(decide (e.1 ∈ deletableEdgeKeys account_id store q))) := by
  have hall : ∀ r ∈ get_edge_values_by_query store q,
      (listGet store.vertices r.1.outbound_id).isSome :=
    fun r hr => (h r (mem_edge_values hr)).1
  have hc := collectDeletableEdges_eq account_id store.vertices
    (get_edge_values_by_query store q) hall
  refine ⟨{ store with edges := store.edges.filter (fun e =>
      !(decide (e.1 ∈ deletableEdgeKeys account_id store q))) }, ?_, rfl⟩
  simp only [delete_edges]
  rw [hc]
  simp only [foldl_listRemove_eq]
  rfl

/-- C8 witness: `sampleStore` satisfies I1; deleting the resolved edge
`1 -a-> 2` (outbound vertex owned by caller 7) succeeds and leaves exactly
the other edge. -/
theorem claim_C8_witness :
    ∃ store', delete_edges 7 sampleStore
        (EdgeQuery.Edges [⟨1, ⟨"a"⟩, 2⟩]) = some store' ∧
      store'.edges = sampleStore.edges.filter (fun e =>
        !(decide (e.1 ∈ deletableEdgeKeys 7 sampleStore
          (EdgeQuery.Edges [⟨1, ⟨"a"⟩, 2⟩])))) :=
  claim_C8 7 sampleStore (EdgeQuery.Edges [⟨1, ⟨"a"⟩, 2⟩]) (by decide)

/-- C3 (amended): for every store and outbound edge `Pipe` with limit `L`,
the result has at most `L` entries provided `L ≥ 1` (with `L = 0` the length
check never fires — see the counterexample); every returned key's
`outbound_id` is the id of some vertex resolved by the inner query; a type
filter forces the key's type, a high filter bounds the timestamp above, and
a low filter bounds it below. -/
theorem claim_C3 (store : InternalMemoryDatastore) (vertex_query : VertexQuery)
    (type_filter : Option Ty) (high_filter low_filter : Option Instant)
    (L : Nat) :
    (1 ≤ L → (get_edge_values_by_query store
        (EdgeQuery.Pipe vertex_query QueryTypeConverter.Outbound type_filter
          high_filter low_filter L)).length ≤ L) ∧
    (∀ e ∈ get_edge_values_by_query store
        (EdgeQuery.Pipe vertex_query QueryTypeConverter.Outbound type_filter
          high_filter low_filter L),
      (∃ p ∈ get_vertex_values_by_query store vertex_query,
        e.1.outbound_id = p.1) ∧
      (∀ T, type_filter = some T → e.1.t = T) ∧
      (∀ H, high_filter = some H → e.2.2 ≤ H) ∧
      (∀ Lo, low_filter = some Lo → Lo ≤ e.2.2)) := by
  obtain ⟨gs, heq, hfa, hlen⟩ :=
    outboundLoop_spec store.edges type_filter high_filter low_filter L
      (get_vertex_values_by_query store vertex_query) []
  rw [edge_pipe_outbound_eq, heq]
  simp only [List.nil_append] at *
  constructor
  · intro hL
    simpa using hlen (by simpa using hL)
  · intro e he
    obtain ⟨g, hg, heg⟩ := List.mem_flatten.mp he
    obtain ⟨p, hp, _, hmem⟩ := exists_rel_of_forall₂_of_mem hfa hg
    obtain ⟨hout, htf, hhf, hlf⟩ := hmem e heg
    refine ⟨⟨p, hp, hout⟩, ?_, ?_, ?_⟩
    · intro T hT
      subst hT
      simpa [typeMismatch] using htf
    · intro H hH
      subst hH
      have hhf' : ¬ (H < e.2.2) := by
        simpa [highReject] using hhf
      exact Nat.le_of_not_lt hhf'
    · intro Lo hLo
      subst hLo
      have hlf' : ¬ (e.2.2 < Lo) := by
        simpa [lowReject] using hlf
      exact Nat.le_of_not_lt hlf'

/-- C3 counterexample: with limit `L = 0` the outbound pipe over a vertex
with two edges returns 2 entries — more than `L`. -/
theorem claim_C3_counterexample :
    ¬ ((get_edge_values_by_query sampleStore
        (EdgeQuery.Pipe (VertexQuery.Vertices [1]) QueryTypeConverter.Outbound
          none none none 0)).length ≤ 0) := by
  decide

/-- C3 witness: at `sampleStore`, an outbound pipe with limit 1 returns at
most one edge, and a returned edge under type filter `a` has type `a`. -/
theorem claim_C3_witness :
    (get_edge_values_by_query sampleStore
        (EdgeQuery.Pipe (VertexQuery.Vertices [1]) QueryTypeConverter.Outbound
          (some ⟨"a"⟩) none none 1)).length ≤ 1 ∧
    (⟨1, ⟨"a"⟩, 2⟩ : EdgeKey).t = ⟨"a"⟩ :=
  ⟨(claim_C3 sampleStore (VertexQuery.Vertices [1]) (some ⟨"a"⟩) none none 1).1
     (by decide),
   ((claim_C3 sampleStore (VertexQuery.Vertices [1]) (some ⟨"a"⟩) none none 1).2
     (⟨1, ⟨"a"⟩, 2⟩, 5, 10) (by decide)).2.1 ⟨"a"⟩ rfl⟩

/-- C4: on a store whose edge index is sorted, the outbound pipe's result is
grouped by the inner query's output order (one group per resolved vertex, in
order, every element bearing that vertex's id, `EdgeKey`-ascending within
each group), while the inbound pipe's result is in full ascending `EdgeKey`
order. -/
theorem claim_C4 (store : InternalMemoryDatastore) (h : edgesSorted store)
    (vertex_query : VertexQuery) (type_filter : Option Ty)
    (high_filter low_filter : Option Instant) (L : Nat) :
    (∃ gs : List (List (EdgeKey × Weight × Instant)),
      get_edge_values_by_query store
          (EdgeQuery.Pipe vertex_query QueryTypeConverter.Outbound type_filter
            high_filter low_filter L) = gs.flatten ∧
      List.Forall₂ (fun g p =>
          (∀ e ∈ g, e.1.outbound_id = p.1) ∧
          g.Pairwise (fun a b => a.1 < b.1))
        gs (get_vertex_values_by_query store vertex_query)) ∧
    (get_edge_values_by_query store
        (EdgeQuery.Pipe vertex_query QueryTypeConverter.Inbound type_filter
          high_filter low_filter L)).Pairwise (fun a b => a.1 < b.1) := by
  constructor
  · obtain ⟨gs, heq, hfa, _⟩ :=
      outboundLoop_spec store.edges type_filter high_filter low_filter L
        (get_vertex_values_by_query store vertex_query) []
    refine ⟨gs, by rw [edge_pipe_outbound_eq, heq]; simp, ?_⟩
    refine hfa.imp ?_
    intro g p hgp
    refine ⟨fun e he => (hgp.2 e he).1, ?_⟩
    have hsubEdges : g.Sublist store.edges :=
      hgp.1.trans (List.filter_sublist _)
    exact h.sublist hsubEdges
  · obtain ⟨g, heq, hsub, _, _⟩ :=
      inboundLoop_spec
        ((get_vertex_values_by_query store vertex_query).map (fun p => p.1))
        type_filter high_filter low_filter L store.edges []
    rw [edge_pipe_inbound_eq, heq]
    simpa using h.sublist hsub

/-- C4 witness: the inbound pipe at the concrete sorted `sampleStore` is
`EdgeKey`-ascending. -/
theorem claim_C4_witness :
    (get_edge_values_by_query sampleStore
        (EdgeQuery.Pipe (VertexQuery.Vertices [2]) QueryTypeConverter.Inbound
          none none none 10)).Pairwise (fun a b => a.1 < b.1) :=
  (claim_C4 sampleStore (by decide) (VertexQuery.Vertices [2]) none none none 10).2

/-- C10: vertex `Pipe` materialization does not deduplicate — a present
vertex appears in the result exactly as many times as its id occurs among
the first `limit` converter projections of the resolved edges. -/
theorem claim_C10 (store : InternalMemoryDatastore) (edge_query : EdgeQuery)
    (converter : QueryTypeConverter) (limit : Nat) (id : Uuid)
    (vv : VertexValue) (h : listGet store.vertices id = some vv) :
    (get_vertex_values_by_query store
        (VertexQuery.Pipe edge_query converter limit)).count (id, vv) =
      (pipeProjectedIds (get_edge_values_by_query store edge_query) converter
        limit).count id := by
  rw [vertex_pipe_eq]
  generalize pipeProjectedIds (get_edge_values_by_query store edge_query)
    converter limit = ids
  induction ids with
  | nil => simp
  | cons i rest ih =>
    by_cases hi : i = id
    · subst hi
      simp [List.filterMap_cons, h, List.count_cons, ih]
    · cases hg : listGet store.vertices i with
      | none =>
        simp [List.filterMap_cons, hg, List.count_cons, hi, ih]
      | some v' =>
        have hne : (i, v') ≠ (id, vv) := by
          intro hc
          exact hi (congrArg Prod.fst hc)
        simp [List.filterMap_cons, hg, List.count_cons, hi, ih, hne]

/-- C10 witness: two edges out of vertex `1` project to ids `[1, 1]`, and the
pipe returns vertex `1` twice. -/
theorem claim_C10_witness :
    (get_vertex_values_by_query sampleStore
        (VertexQuery.Pipe
          (EdgeQuery.Edges [⟨1, ⟨"a"⟩, 2⟩, ⟨1, ⟨"b"⟩, 2⟩])
          QueryTypeConverter.Outbound 10)).count (1, ⟨7, ⟨"p"⟩⟩) = 2 := by
  rw [claim_C10 sampleStore (EdgeQuery.Edges [⟨1, ⟨"a"⟩, 2⟩, ⟨1, ⟨"b"⟩, 2⟩])
    QueryTypeConverter.Outbound 10 1 ⟨7, ⟨"p"⟩⟩ (by decide)]
  decide

end IndraDB
